import Mathlib

/-!
Shallow embedding of the go-shamir library (package goshamir):
Shamir secret sharing over the prime field GF(257), with shares carrying a
2-byte little-endian encoding of each field element, plus the hex share codec
from utils.go.  Go machine details are modelled as follows: `[]byte` becomes
`List Nat` (entries < 256 by construction), `uint8` becomes `Nat`, `*big.Int`
becomes `Int` (arbitrary precision, as in Go), `big.Int.Mod` is Lean's `%` on
`Int` (both are Euclidean: result in `[0, m)` for a positive modulus), and a
Go `(T, error)` return becomes `Except String T`.  A Go `nil` slice versus an
empty slice is distinguished (as `Option`) only where the library itself
distinguishes them, namely in the hex codec entry points.  The `crypto/rand`
source is modelled as an oracle argument: `rand.Int(rand.Reader, prime)`
returns the next oracle value, which by the stdlib contract lies in
`[0, prime)` and is uniform there; oracle failure (RandomnessFailure) is not
modelled.
-/

namespace GoShamir

/-- Field modulus for GF(257) (`FieldPrime` in the source). -/
def FieldPrime : Int := 257

/-- Maximum number of shares (uint8 index limit). -/
def MaxShares : Nat := 255

/-- Minimum threshold for security. -/
def MinThreshold : Nat := 2

/-- A single piece of the secret: `Index uint8`, `Value []byte`. -/
structure Share where
  index : Nat
  value : List Nat
deriving Repr, DecidableEq

instance : Inhabited Share := ⟨⟨0, []⟩⟩

/-- Decimal digit character (used to model `strconv.FormatUint` and the
`%d` verbs of `fmt.Errorf`). -/
def decDigitChar (n : Nat) : Char := Char.ofNat (48 + n)

/-- Decimal rendering, most significant digit first; the first argument is
fuel (`n + 1` always suffices since `n / 10 < n` for `n > 0`). -/
def natToDecCore : Nat → Nat → List Char
  | 0, _ => []
  | fuel + 1, n =>
    if n = 0 then [] else natToDecCore fuel (n / 10) ++ [decDigitChar (n % 10)]

/-- Characters of the decimal rendering of `n` (`strconv.FormatUint n 10`). -/
def natToDecChars (n : Nat) : List Char :=
  if n = 0 then [decDigitChar 0] else natToDecCore (n + 1) n

/-- `strconv.FormatUint n 10` as a string. -/
def natToDec (n : Nat) : String := String.mk (natToDecChars n)

/-- `validateSplitParams` from utils.go.  The Go `secret == nil` check is
subsumed by the emptiness check (a nil byte slice has length 0). -/
def validateSplitParams (secret : List Nat) (totalShares threshold : Nat) :
    Except String Unit :=
  if secret.isEmpty then .error "secret must not be empty"
  else if threshold < MinThreshold then .error "threshold must be at least 2"
  else if threshold > MaxShares then .error "threshold must be <= 255"
  else if totalShares < threshold then .error "totalShares must be >= threshold"
  else if totalShares > MaxShares then .error "totalShares must be <= 255"
  else .ok ()

/-- Length-consistency loop of `validateCombineParams` (the `for i, s :=
range usedShares` loop), carrying the running index for the error message. -/
def checkLengths : List Share → Nat → Nat → Except String Unit
  | [], _, _ => .ok ()
  | s :: rest, expected, i =>
    if s.value.length ≠ expected then
      .error ("share " ++ natToDec i ++ " has inconsistent length")
    else checkLengths rest expected (i + 1)

/-- `validateCombineParams` from utils.go.  The Go `shares == nil` check is
subsumed by the emptiness check. -/
def validateCombineParams (shares : List Share) (threshold : Nat) :
    Except String Unit :=
  if shares.isEmpty then .error "no shares provided"
  else if threshold < MinThreshold then .error "threshold must be at least 2"
  else if threshold > MaxShares then .error "threshold must be <= 255"
  else if shares.length < threshold then
    .error "insufficient shares: need at least threshold shares"
  else
    let usedShares := if shares.length > threshold then shares.take threshold else shares
    let expectedLen := (usedShares.getD 0 default).value.length
    if expectedLen = 0 then .error "share value cannot be empty"
    else if expectedLen % 2 ≠ 0 then .error "share value length must be even"
    else checkLengths usedShares expectedLen 0

/-- Index-validation loop of `validateShareIndices`: the Go `indices` map is
modelled by the list of indices already seen. -/
def checkIndices : List Share → List Nat → Except String Unit
  | [], _ => .ok ()
  | s :: rest, seen =>
    if s.index = 0 then .error "share index must be non-zero"
    else if seen.contains s.index then .error "duplicate share index found"
    else checkIndices rest (s.index :: seen)

/-- `validateShareIndices` from utils.go. -/
def validateShareIndices (shares : List Share) : Except String Unit :=
  checkIndices shares []

/-- `generatePolynomialCoeffs`: `coeffs[0]` is the secret byte, and
`coeffs[i]` for `1 <= i < threshold` is the oracle's value for draw `i`
(modelling `rand.Int(rand.Reader, prime)`). -/
def generatePolynomialCoeffs (secretByte threshold : Nat) (rnd : Nat → Int) :
    List Int :=
  (secretByte : Int) :: (List.range (threshold - 1)).map (fun i => rnd (i + 1))

/-- `evaluatePolynomial`: Horner evaluation, starting from the last
coefficient and reducing `mod prime` after each step, exactly as the Go
loop does (the initial value, the last coefficient, is not reduced). -/
def evaluatePolynomial : List Int → Int → Int → Int
  | [], _, _ => 0
  | c :: rest, x, prime =>
    match rest with
    | [] => c
    | _ :: _ => (evaluatePolynomial rest x prime * x + c) % prime

/-- The two bytes appended to a share for one secret byte: the 2-byte
little-endian encoding `y mod 256, y div 256` of the polynomial value `y`
at the share's x-coordinate. -/
def encodePoint (coeffs : List Int) (x prime : Int) : List Nat :=
  let y := evaluatePolynomial coeffs x prime
  [(y % 256).toNat, (y / 256).toNat]

/-- One pass of Split's inner share loop for a fixed byte's coefficients:
every share receives the 2-byte little-endian encoding of the polynomial
value at its own x-coordinate (`x = i + 1 = shares[i].Index`). -/
def splitAppendByte (shares : List Share) (coeffs : List Int) (prime : Int) :
    List Share :=
  shares.map (fun s =>
    { s with value := s.value ++ encodePoint coeffs (s.index : Int) prime })

/-- `Split` from the goshamir package: validate, then one random polynomial
per secret byte, evaluated at `x = 1 .. totalShares`.  The oracle `rnd`
models `crypto/rand`: `rnd p i` is the coefficient drawn for byte position
`p` and coefficient index `i`. -/
def Split (secret : List Nat) (totalShares threshold : Nat)
    (rnd : Nat → Nat → Int) : Except String (List Share) :=
  match validateSplitParams secret totalShares threshold with
  | .error e => .error e
  | .ok _ =>
    let init : List Share :=
      (List.range totalShares).map (fun i => { index := i + 1, value := [] })
    .ok ((secret.enum).foldl
      (fun shares pb =>
        splitAppendByte shares
          (generatePolynomialCoeffs pb.2 threshold (rnd pb.1)) FieldPrime)
      init)

/-- Model of `math/big`'s `ModInverse(a, prime)` as used in
`lagrangeInterpolate`: the least inverse of `a` modulo `prime` when one
exists (for a prime modulus: iff `a` is not a multiple of it), else `none`. -/
def modInverse (a prime : Int) : Option Int :=
  ((List.range prime.toNat).find?
    (fun b => ((a % prime) * ((b : Nat) : Int)) % prime == 1)).map
    (fun b => ((b : Nat) : Int))

/-- Decoding of the 2-byte little-endian field element of share `s` at byte
position `bytePos` (`yiVal` in `lagrangeInterpolate`). -/
def decodeShareValue (s : Share) (bytePos : Nat) : Int :=
  ((s.value.getD (bytePos * 2) 0 : Nat) : Int) +
    ((s.value.getD (bytePos * 2 + 1) 0 : Nat) : Int) * 256

/-- The x-coordinate (share index) of the `j`-th share, as an integer. -/
def idxInt (shares : List Share) (j : Nat) : Int :=
  ((shares.getD j default).index : Int)

/-- The inner `j` loop of `lagrangeInterpolate` for a fixed `i`: the running
numerator and denominator products, each reduced `mod prime` after every
multiplication. -/
def lagrangeNumDen (shares : List Share) (xi : Int) (i : Nat) (prime : Int) :
    Int × Int :=
  (List.range shares.length).foldl
    (fun nd j =>
      if i = j then nd
      else
        let xj : Int := ((shares.getD j default).index : Int)
        ((nd.1 * (-xj)) % prime, (nd.2 * (xi - xj)) % prime))
    (1, 1)

/-- The body of `lagrangeInterpolate`'s outer loop for one `i`: range check,
2-byte decode with field-range check, numerator/denominator products,
modular inverse, and the term `(yi * ((num * invDen) % prime)) % prime`. -/
def lagrangeTerm (shares : List Share) (i bytePos : Nat) (prime : Int) :
    Except String Int :=
  let s := shares.getD i default
  if s.value.length ≤ bytePos * 2 + 1 then
    .error ("share " ++ natToDec i ++ ": byte position out of range")
  else
    let xi : Int := (s.index : Int)
    let yiVal : Int := decodeShareValue s bytePos
    if FieldPrime ≤ yiVal then
      .error ("share " ++ natToDec i ++ ": decoded value " ++
        natToDec yiVal.toNat ++ " out of field range")
    else
      let nd := lagrangeNumDen shares xi i prime
      match modInverse nd.2 prime with
      | none => .error "modular inverse does not exist"
      | some invDen => .ok ((yiVal * ((nd.1 * invDen) % prime)) % prime)

/-- `lagrangeInterpolate` from the goshamir package.  The Go `bytePos < 0`
check disappears because `bytePos` is a `Nat` here. -/
def lagrangeInterpolate (shares : List Share) (bytePos : Nat) (prime : Int) :
    Except String Int :=
  if shares.isEmpty then .error "no shares for interpolation"
  else
    (List.range shares.length).foldlM
      (fun result i =>
        (lagrangeTerm shares i bytePos prime).map
          (fun term => (result + term) % prime))
      0

/-- `Combine` from the goshamir package: validate, use the first `threshold`
shares, and reconstruct each byte as `byte(L(0) mod 256)`. -/
def Combine (shares : List Share) (threshold : Nat) : Except String (List Nat) :=
  match validateCombineParams shares threshold with
  | .error e => .error e
  | .ok _ =>
    match validateShareIndices (shares.take threshold) with
    | .error e => .error e
    | .ok _ =>
      let valueLen := (shares.getD 0 default).value.length
      let secretLen := valueLen / 2
      (List.range secretLen).mapM
        (fun bytePos =>
          (lagrangeInterpolate (shares.take threshold) bytePos FieldPrime).map
            (fun r => (r % 256).toNat))

/-- Closed form of the value buffer that `Split` builds for the share with
x-coordinate `x`: for every secret byte position the 2-byte encoding of the
polynomial value at `x`. -/
def splitValue (secret : List Nat) (threshold : Nat) (rnd : Nat → Nat → Int)
    (x : Int) : List Nat :=
  (secret.enum).flatMap (fun pb =>
    encodePoint (generatePolynomialCoeffs pb.2 threshold (rnd pb.1)) x FieldPrime)

/-! ### Hex share codec (utils.go) -/

/-- Lowercase hexadecimal digit character (`encoding/hex` alphabet). -/
def hexDigitChar (n : Nat) : Char :=
  if n < 10 then Char.ofNat (48 + n) else Char.ofNat (87 + n)

/-- `hex.EncodeToString`: high nibble first, lowercase. -/
def hexEncodeBytes (bs : List Nat) : List Char :=
  bs.flatMap (fun b => [hexDigitChar (b / 16), hexDigitChar (b % 16)])

/-- Value of one hexadecimal digit character (`encoding/hex` accepts both
cases on decode). -/
def hexDigitVal (c : Char) : Option Nat :=
  if 48 ≤ c.toNat ∧ c.toNat ≤ 57 then some (c.toNat - 48)
  else if 97 ≤ c.toNat ∧ c.toNat ≤ 102 then some (c.toNat - 87)
  else if 65 ≤ c.toNat ∧ c.toNat ≤ 70 then some (c.toNat - 55)
  else none

/-- `hex.DecodeString`: fails on odd length or a non-hex character. -/
def hexDecode : List Char → Option (List Nat)
  | [] => some []
  | [_] => none
  | c1 :: c2 :: rest =>
    match hexDigitVal c1, hexDigitVal c2, hexDecode rest with
    | some hi, some lo, some bs => some ((hi * 16 + lo) :: bs)
    | _, _, _ => none

/-- Value of one decimal digit character. -/
def decDigitVal (c : Char) : Option Nat :=
  if 48 ≤ c.toNat ∧ c.toNat ≤ 57 then some (c.toNat - 48) else none

/-- Digit-accumulating loop of `strconv.ParseUint(s, 10, _)`. -/
def parseDecCore : List Char → Nat → Option Nat
  | [], acc => some acc
  | c :: rest, acc =>
    match decDigitVal c with
    | some d => parseDecCore rest (acc * 10 + d)
    | none => none

/-- `strconv.ParseUint(s, 10, 8)`: decimal digits only, value at most 255. -/
def parseUint8 (s : List Char) : Option Nat :=
  if s.isEmpty then none
  else
    match parseDecCore s 0 with
    | some v => if v ≤ 255 then some v else none
    | none => none

/-- `strings.SplitN(s, ":", 2)`: `none` when there is no colon, otherwise
the segments before and after the first colon. -/
def splitFirstColon : List Char → Option (List Char × List Char)
  | [] => none
  | c :: rest =>
    if c = ':' then some ([], rest)
    else (splitFirstColon rest).map (fun p => (c :: p.1, p.2))

/-- `ErrInvalidEncodedShare`. -/
def errInvalidEncodedShare : String := "invalid encoded share format"

/-- `encodeShareToHex`: `"<decimal index>:<lowercase hex of value>"`. -/
def encodeShareToHex (s : Share) : List Char :=
  natToDecChars s.index ++ ':' :: hexEncodeBytes s.value

/-- `decodeShareFromHex` from utils.go. -/
def decodeShareFromHex (encoded : List Char) : Except String Share :=
  if encoded.isEmpty then .error errInvalidEncodedShare
  else
    match splitFirstColon encoded with
    | none => .error errInvalidEncodedShare
    | some parts =>
      if parts.1.isEmpty ∨ parts.2.isEmpty then .error errInvalidEncodedShare
      else
        match parseUint8 parts.1 with
        | none => .error errInvalidEncodedShare
        | some index =>
          if index = 0 then .error errInvalidEncodedShare
          else
            match hexDecode parts.2 with
            | none => .error errInvalidEncodedShare
            | some value =>
              if value.isEmpty then .error errInvalidEncodedShare
              else .ok { index := index, value := value }

/-- `EncodeSharesToHex`; the argument is `none` for a Go `nil` slice. -/
def EncodeSharesToHex (shares : Option (List Share)) :
    Except String (List (List Char)) :=
  match shares with
  | none => .error "shares cannot be nil"
  | some ss =>
    if ss.isEmpty then .ok []
    else .ok (ss.map encodeShareToHex)

/-- The `for i, v := range encoded` loop of `DecodeSharesFromHex`, wrapping
any per-share error with its position. -/
def decodeSharesLoop : List (List Char) → Nat → Except String (List Share)
  | [], _ => .ok []
  | v :: rest, i =>
    match decodeShareFromHex v with
    | .error e => .error ("invalid share at index " ++ natToDec i ++ ": " ++ e)
    | .ok s => (decodeSharesLoop rest (i + 1)).map (fun ss => s :: ss)

/-- `DecodeSharesFromHex`; the argument is `none` for a Go `nil` slice. -/
def DecodeSharesFromHex (encoded : Option (List (List Char))) :
    Except String (List Share) :=
  match encoded with
  | none => .error "encoded data cannot be nil"
  | some es =>
    if es.isEmpty then .ok []
    else decodeSharesLoop es 0

/-! ### Field facts for GF(257) -/

instance : Fact (Nat.Prime 257) := ⟨by norm_num⟩

lemma intCast_mod257 (a : Int) : ((a % 257 : Int) : ZMod 257) = (a : ZMod 257) := by
  simpa using ZMod.intCast_mod a 257

lemma intCast257_inj {a b : Int} (ha0 : 0 ≤ a) (ha : a < 257) (hb0 : 0 ≤ b)
    (hb : b < 257) (h : (a : ZMod 257) = (b : ZMod 257)) : a = b := by
  rw [ZMod.intCast_eq_intCast_iff'] at h
  simpa [Int.emod_eq_of_lt ha0 (by exact_mod_cast ha),
    Int.emod_eq_of_lt hb0 (by exact_mod_cast hb)] using h

lemma emod257_ne_zero_of_cast_ne {a : Int} (h : (a : ZMod 257) ≠ 0) :
    a % 257 ≠ 0 := by
  intro h0
  apply h
  rw [← intCast_mod257 a, h0]
  simp

lemma share_getD_get (l : List Share) {n : Nat} (h : n < l.length) :
    l.getD n default = l.get ⟨n, h⟩ := by
  rw [List.getD_eq_getElem?_getD, List.getElem?_eq_getElem h]
  rfl

lemma share_getD_mem (l : List Share) {n : Nat} (h : n < l.length) :
    l.getD n default ∈ l := by
  rw [share_getD_get l h]
  exact l.get_mem n h

lemma index_getD_inj (shares : List Share)
    (hnd : (shares.map Share.index).Nodup) {a b : Nat}
    (ha : a < shares.length) (hb : b < shares.length)
    (h : (shares.getD a default).index = (shares.getD b default).index) :
    a = b := by
  have ha2 : a < (shares.map Share.index).length := by simpa using ha
  have hb2 : b < (shares.map Share.index).length := by simpa using hb
  have hget : (shares.map Share.index).get ⟨a, ha2⟩ =
      (shares.map Share.index).get ⟨b, hb2⟩ := by
    rw [List.get_eq_getElem, List.get_eq_getElem, List.getElem_map,
      List.getElem_map]
    rw [share_getD_get shares ha, share_getD_get shares hb] at h
    simpa using h
  have := (List.Nodup.get_inj_iff hnd).mp hget
  exact congrArg Fin.val this

/-! ### Modular inverse -/

lemma modInverse_spec {a : Int} (h : (a : ZMod 257) ≠ 0) :
    ∃ b : Int, modInverse a 257 = some b ∧ 0 ≤ b ∧ b < 257 ∧
      (b : ZMod 257) = ((a : ZMod 257))⁻¹ := by
  have hcastmul : ∀ b : Nat, ((((a % 257) * (b : Int)) % 257 : Int) : ZMod 257) =
      (a : ZMod 257) * ((b : ZMod 257)) := by
    intro b
    rw [intCast_mod257, Int.cast_mul, intCast_mod257, Int.cast_natCast]
  have hone : ∀ c : Int, 0 ≤ c → c < 257 → ((c : ZMod 257) = 1) → c = 1 := by
    intro c h0 h1 hc
    exact intCast257_inj h0 h1 (by norm_num) (by norm_num) (by simpa using hc)
  have hwlt : ((a : ZMod 257)⁻¹).val < 257 := ZMod.val_lt _
  have hwcast : ((((a : ZMod 257)⁻¹).val : Nat) : ZMod 257) = ((a : ZMod 257))⁻¹ :=
    ZMod.natCast_rightInverse _
  have hPw : (((a % 257) * ((((a : ZMod 257)⁻¹).val : Nat) : Int)) % 257 == 1) = true := by
    have hval : ((a % 257) * ((((a : ZMod 257)⁻¹).val : Nat) : Int)) % 257 = 1 := by
      apply hone _ (Int.emod_nonneg _ (by norm_num))
        (Int.emod_lt_of_pos _ (by norm_num))
      rw [hcastmul, hwcast, mul_inv_cancel₀ h]
    rw [hval]
    rfl
  have hsome : ((List.range ((257 : Int)).toNat).find?
      (fun b => ((a % 257) * ((b : Nat) : Int)) % 257 == 1)).isSome := by
    apply List.find?_isSome.mpr
    exact ⟨((a : ZMod 257)⁻¹).val,
      List.mem_range.mpr (by simpa using hwlt), hPw⟩
  obtain ⟨b0, hfind⟩ := Option.isSome_iff_exists.mp hsome
  have hb0lt : b0 < 257 := by
    simpa using List.mem_range.mp (List.mem_of_find?_eq_some hfind)
  have hb0val : ((a % 257) * ((b0 : Nat) : Int)) % 257 = 1 := by
    simpa using List.find?_some hfind
  refine ⟨((b0 : Nat) : Int), ?_, by positivity, by exact_mod_cast hb0lt, ?_⟩
  · have heq : modInverse a 257 = ((List.range ((257 : Int)).toNat).find?
        (fun b => ((a % 257) * ((b : Nat) : Int)) % 257 == 1)).map
        (fun b => ((b : Nat) : Int)) := rfl
    rw [heq, hfind]
    rfl
  · have hc : (a : ZMod 257) * ((b0 : ZMod 257)) = 1 := by
      rw [← hcastmul b0, hb0val]
      norm_num
    have hb := eq_inv_of_mul_eq_one_right hc
    rw [Int.cast_natCast]
    exact hb

/-! ### The numerator and denominator products in `ZMod 257` -/

lemma numDenFold_cast (g : Nat → Int) (xi : Int) (i m : Nat) :
    (((List.range m).foldl (fun nd j => if i = j then nd
        else ((nd.1 * (-(g j))) % 257, (nd.2 * (xi - g j)) % 257))
        ((1 : Int), (1 : Int))).1 : ZMod 257) =
      (∏ j ∈ (Finset.range m).erase i, (-((g j : Int) : ZMod 257))) ∧
    (((List.range m).foldl (fun nd j => if i = j then nd
        else ((nd.1 * (-(g j))) % 257, (nd.2 * (xi - g j)) % 257))
        ((1 : Int), (1 : Int))).2 : ZMod 257) =
      (∏ j ∈ (Finset.range m).erase i,
        ((xi : ZMod 257) - ((g j : Int) : ZMod 257))) := by
  induction m with
  | zero => simp
  | succ m ih =>
    rw [List.range_succ, List.foldl_append, List.foldl_cons, List.foldl_nil]
    by_cases him : i = m
    · subst him
      rw [if_pos rfl, Finset.range_succ,
        Finset.erase_insert Finset.not_mem_range_self,
        ← Finset.erase_eq_of_not_mem
          (Finset.not_mem_range_self : i ∉ Finset.range i)]
      exact ih
    · rw [if_neg him, Finset.range_succ,
        Finset.erase_insert_of_ne (Ne.symm him),
        Finset.prod_insert (by simp),
        Finset.prod_insert (by simp)]
      refine ⟨?_, ?_⟩
      · rw [intCast_mod257, Int.cast_mul, ih.1, Int.cast_neg]
        ring
      · rw [intCast_mod257, Int.cast_mul, ih.2, Int.cast_sub]
        ring

lemma lagrangeNumDen_cast (shares : List Share) (xi : Int) (i : Nat) :
    ((lagrangeNumDen shares xi i 257).1 : ZMod 257) =
      (∏ j ∈ (Finset.range shares.length).erase i,
        (-((idxInt shares j : Int) : ZMod 257))) ∧
    ((lagrangeNumDen shares xi i 257).2 : ZMod 257) =
      (∏ j ∈ (Finset.range shares.length).erase i,
        ((xi : ZMod 257) - ((idxInt shares j : Int) : ZMod 257))) :=
  numDenFold_cast (fun j => idxInt shares j) xi i shares.length

lemma lagrangeNumDen_den_ne_zero (shares : List Share) (i : Nat)
    (hi : i < shares.length)
    (hidx : ∀ s ∈ shares, 1 ≤ s.index ∧ s.index ≤ 255)
    (hnd : (shares.map Share.index).Nodup) :
    ((lagrangeNumDen shares (idxInt shares i) i 257).2 : ZMod 257) ≠ 0 := by
  rw [(lagrangeNumDen_cast shares (idxInt shares i) i).2]
  rw [Finset.prod_ne_zero_iff]
  intro j hj
  obtain ⟨hji, hjm⟩ := Finset.mem_erase.mp hj
  have hjlt : j < shares.length := Finset.mem_range.mp hjm
  rw [sub_ne_zero]
  intro heq
  apply hji
  have hbi := hidx _ (share_getD_mem shares hi)
  have hbj := hidx _ (share_getD_mem shares hjlt)
  have hInt : idxInt shares i = idxInt shares j := by
    refine intCast257_inj ?_ ?_ ?_ ?_ heq
    · exact Int.natCast_nonneg _
    · exact lt_of_le_of_lt
        (show idxInt shares i ≤ 255 by unfold idxInt; exact_mod_cast hbi.2)
        (by norm_num)
    · exact Int.natCast_nonneg _
    · exact lt_of_le_of_lt
        (show idxInt shares j ≤ 255 by unfold idxInt; exact_mod_cast hbj.2)
        (by norm_num)
  have hNat : (shares.getD i default).index = (shares.getD j default).index := by
    unfold idxInt at hInt
    exact_mod_cast hInt
  exact (index_getD_inj shares hnd hi hjlt hNat).symm

/-! ### Distinctness of the error messages of `lagrangeInterpolate` -/

lemma natToDecChars_ne_nil (n : Nat) : natToDecChars n ≠ [] := by
  unfold natToDecChars
  split
  · simp
  · rename_i hn
    unfold natToDecCore
    rw [if_neg hn]
    simp

lemma natToDec_length_pos (n : Nat) : 1 ≤ (natToDec n).length := by
  have hmk : (natToDec n).length = (natToDecChars n).length := rfl
  rw [hmk]
  cases h : natToDecChars n with
  | nil => exact absurd h (natToDecChars_ne_nil n)
  | cons a t => simp

lemma errMsg_range_ne_inverse (i : Nat) :
    ("share " ++ natToDec i ++ ": byte position out of range" : String) ≠
      "modular inverse does not exist" := by
  intro h
  have hl := congrArg String.length h
  rw [String.length_append, String.length_append] at hl
  have h1 : ("share " : String).length = 6 := rfl
  have h2 : ((": byte position out of range" : String)).length = 28 := rfl
  have h3 : (("modular inverse does not exist" : String)).length = 30 := rfl
  have h4 := natToDec_length_pos i
  omega

lemma errMsg_decode_ne_inverse (i v : Nat) :
    ("share " ++ natToDec i ++ ": decoded value " ++ natToDec v ++
        " out of field range" : String) ≠
      "modular inverse does not exist" := by
  intro h
  have hl := congrArg String.length h
  rw [String.length_append, String.length_append, String.length_append,
    String.length_append] at hl
  have h1 : ("share " : String).length = 6 := rfl
  have h2 : ((": decoded value " : String)).length = 16 := rfl
  have h3 : ((" out of field range" : String)).length = 19 := rfl
  have h4 : (("modular inverse does not exist" : String)).length = 30 := rfl
  have h5 := natToDec_length_pos i
  have h6 := natToDec_length_pos v
  omega

/-! ### The interpolation loop -/

lemma foldlM_ne_error (l : List Nat) (f : Int → Nat → Except String Int)
    (init : Int) (msg : String)
    (h : ∀ acc a, a ∈ l → f acc a ≠ .error msg) :
    l.foldlM f init ≠ .error msg := by
  induction l generalizing init with
  | nil =>
    intro hc
    cases hc
  | cons a t ih =>
    rw [List.foldlM_cons]
    cases hfa : f init a with
    | error e =>
      have hred : (Except.error e >>= fun b => t.foldlM f b :
          Except String Int) = Except.error e := rfl
      rw [hred]
      intro hc
      apply h init a (List.mem_cons_self a t)
      rw [hfa]
      injection hc with hc2
      rw [hc2]
    | ok b =>
      have hred : (Except.ok b >>= fun b2 => t.foldlM f b2 :
          Except String Int) = t.foldlM f b := rfl
      rw [hred]
      exact ih b (fun acc x hx => h acc x (List.mem_cons_of_mem a hx))

lemma lagrangeTerm_ok (shares : List Share) (i bytePos : Nat)
    (hrange : bytePos * 2 + 1 < (shares.getD i default).value.length)
    (hdec : decodeShareValue (shares.getD i default) bytePos < 257)
    (hden : ((lagrangeNumDen shares (idxInt shares i) i 257).2 : ZMod 257) ≠ 0) :
    ∃ t : Int, lagrangeTerm shares i bytePos 257 = .ok t ∧ 0 ≤ t ∧ t < 257 ∧
      (t : ZMod 257) =
        (decodeShareValue (shares.getD i default) bytePos : ZMod 257) *
        (((lagrangeNumDen shares (idxInt shares i) i 257).1 : ZMod 257) *
          (((lagrangeNumDen shares (idxInt shares i) i 257).2 : ZMod 257))⁻¹) := by
  obtain ⟨b, hsome, hb0, hblt, hbcast⟩ := modInverse_spec hden
  refine ⟨(decodeShareValue (shares.getD i default) bytePos *
      (((lagrangeNumDen shares (idxInt shares i) i 257).1 * b) % 257)) % 257,
    ?_, Int.emod_nonneg _ (by norm_num), Int.emod_lt_of_pos _ (by norm_num), ?_⟩
  · simp only [lagrangeTerm]
    rw [if_neg (by omega), if_neg (by
      show ¬ FieldPrime ≤ decodeShareValue (shares.getD i default) bytePos
      simp only [FieldPrime]
      omega)]
    have hx : ((shares.getD i default).index : Int) = idxInt shares i := rfl
    rw [hx, hsome]
  · rw [intCast_mod257, Int.cast_mul, intCast_mod257, Int.cast_mul, hbcast]

lemma lagrangeTerm_ne_invErr (shares : List Share) (i bytePos : Nat)
    (hi : i < shares.length)
    (hidx : ∀ s ∈ shares, 1 ≤ s.index ∧ s.index ≤ 255)
    (hnd : (shares.map Share.index).Nodup) :
    lagrangeTerm shares i bytePos 257 ≠
      .error "modular inverse does not exist" := by
  simp only [lagrangeTerm]
  by_cases h1 : (shares.getD i default).value.length ≤ bytePos * 2 + 1
  · rw [if_pos h1]
    intro hc
    injection hc with hc2
    exact errMsg_range_ne_inverse i hc2
  · rw [if_neg h1]
    by_cases h2 : FieldPrime ≤ decodeShareValue (shares.getD i default) bytePos
    · rw [if_pos h2]
      intro hc
      injection hc with hc2
      exact errMsg_decode_ne_inverse i _ hc2
    · rw [if_neg h2]
      obtain ⟨b, hsome, _⟩ :=
        modInverse_spec (lagrangeNumDen_den_ne_zero shares i hi hidx hnd)
      have hx : ((shares.getD i default).index : Int) = idxInt shares i := rfl
      rw [hx, hsome]
      intro hc
      cases hc

/-- C2: whenever the shares consumed by `Combine` (the first `threshold` in
input order) have pairwise-distinct non-zero indices at most 255, the
Lagrange denominator accumulated by `lagrangeNumDen` is never divisible by
257, the modular inverse always exists, and `lagrangeInterpolate` can never
return the defensive `modular inverse does not exist` fault. -/
theorem lagrange_denominator_nonzero (shares : List Share)
    (threshold bytePos : Nat) (hlen : threshold ≤ shares.length)
    (hidx : ∀ s ∈ shares.take threshold, 1 ≤ s.index ∧ s.index ≤ 255)
    (hnd : ((shares.take threshold).map Share.index).Nodup) :
    (∀ i, i < threshold →
      (lagrangeNumDen (shares.take threshold)
        (idxInt (shares.take threshold) i) i 257).2 % 257 ≠ 0 ∧
      (modInverse (lagrangeNumDen (shares.take threshold)
        (idxInt (shares.take threshold) i) i 257).2 257).isSome = true) ∧
    lagrangeInterpolate (shares.take threshold) bytePos 257 ≠
      .error "modular inverse does not exist" := by
  have htl : (shares.take threshold).length = threshold := by
    rw [List.length_take]
    omega
  constructor
  · intro i hi
    have hden := lagrangeNumDen_den_ne_zero (shares.take threshold) i
      (by omega) hidx hnd
    refine ⟨emod257_ne_zero_of_cast_ne hden, ?_⟩
    obtain ⟨b, hsome, _⟩ := modInverse_spec hden
    rw [hsome]
    rfl
  · simp only [lagrangeInterpolate]
    by_cases hemp : (shares.take threshold).isEmpty
    · rw [if_pos hemp]
      intro hc
      injection hc with hc2
      exact absurd hc2 (by decide)
    · rw [if_neg hemp]
      apply foldlM_ne_error
      intro acc a ha
      have halt : a < (shares.take threshold).length := List.mem_range.mp ha
      cases hterm : lagrangeTerm (shares.take threshold) a bytePos 257 with
      | error e =>
        have hne := lagrangeTerm_ne_invErr (shares.take threshold) a bytePos
          halt hidx hnd
        rw [hterm] at hne
        have hred : ((Except.error e : Except String Int).map
            (fun term => (acc + term) % 257)) = Except.error e := rfl
        rw [hred]
        intro hc
        injection hc with hc2
        exact hne (by rw [hc2])
      | ok t =>
        intro hc
        cases hc

/-- Witness for C2 at concrete inputs. -/
theorem lagrange_denominator_nonzero_witness :
    lagrangeInterpolate ([Share.mk 1 [1, 0], Share.mk 2 [3, 0]].take 2) 0 257 ≠
      .error "modular inverse does not exist" :=
  (lagrange_denominator_nonzero [Share.mk 1 [1, 0], Share.mk 2 [3, 0]] 2 0
    (by decide) (by decide) (by decide)).2

/-- C8: inside the reconstruction loop a decoded 2-byte element
`lo + 256 * hi` is rejected with a corruption error precisely when it is at
least 257; a decoded value of 256 (the field element `P - 1`) is accepted
and, with well-formed indices, the share's term is computed without
error. -/
theorem decode_range_check (shares : List Share) (i bytePos : Nat)
    (hi : i < shares.length)
    (hrange : bytePos * 2 + 1 < (shares.getD i default).value.length)
    (hidx : ∀ s ∈ shares, 1 ≤ s.index ∧ s.index ≤ 255)
    (hnd : (shares.map Share.index).Nodup) :
    (257 ≤ decodeShareValue (shares.getD i default) bytePos →
      lagrangeTerm shares i bytePos 257 =
        .error ("share " ++ natToDec i ++ ": decoded value " ++
          natToDec (decodeShareValue (shares.getD i default) bytePos).toNat ++
          " out of field range")) ∧
    (decodeShareValue (shares.getD i default) bytePos < 257 →
      ∃ t, lagrangeTerm shares i bytePos 257 = .ok t) := by
  constructor
  · intro hge
    simp only [lagrangeTerm]
    rw [if_neg (by omega), if_pos (by
      show FieldPrime ≤ decodeShareValue (shares.getD i default) bytePos
      simp only [FieldPrime]
      omega)]
  · intro hlt
    obtain ⟨t, ht, _⟩ := lagrangeTerm_ok shares i bytePos hrange hlt
      (lagrangeNumDen_den_ne_zero shares i hi hidx hnd)
    exact ⟨t, ht⟩

/-- Witness for C8: a decoded value of exactly 256 is accepted. -/
theorem decode_range_check_witness :
    ∃ t, lagrangeTerm [Share.mk 1 [0, 1], Share.mk 2 [0, 1]] 0 0 257 = .ok t :=
  (decode_range_check [Share.mk 1 [0, 1], Share.mk 2 [0, 1]] 0 0
    (by decide) (by decide) (by decide) (by decide)).2 (by decide)

/-! ### Soundness and completeness of the Combine validators -/

lemma checkIndices_ok_iff (l : List Share) (seen : List Nat) :
    checkIndices l seen = .ok () ↔
      ((∀ s ∈ l, s.index ≠ 0) ∧ (l.map Share.index).Nodup ∧
        ∀ s ∈ l, s.index ∉ seen) := by
  induction l generalizing seen with
  | nil => simp [checkIndices]
  | cons s t ih =>
    simp only [checkIndices]
    by_cases h0 : s.index = 0
    · rw [if_pos h0]
      simp [h0]
    · rw [if_neg h0]
      by_cases hseen : seen.contains s.index
      · rw [if_pos hseen]
        have hmem : s.index ∈ seen := by
          simpa using hseen
        simp only [List.map_cons, List.nodup_cons]
        constructor
        · intro hc
          cases hc
        · rintro ⟨-, -, hall⟩
          exact absurd hmem (hall s (List.mem_cons_self s t))
      · rw [if_neg hseen]
        rw [ih]
        have hnmem : s.index ∉ seen := by
          simpa using hseen
        constructor
        · rintro ⟨hz, hnd, hsn⟩
          refine ⟨?_, ?_, ?_⟩
          · intro x hx
            rcases List.mem_cons.mp hx with rfl | hxt
            · exact h0
            · exact hz x hxt
          · rw [List.map_cons, List.nodup_cons]
            refine ⟨?_, hnd⟩
            intro hc
            obtain ⟨x, hxt, hxe⟩ := List.mem_map.mp hc
            exact (hsn x hxt) (by rw [hxe]; exact List.mem_cons_self _ _)
          · intro x hx
            rcases List.mem_cons.mp hx with rfl | hxt
            · exact hnmem
            · intro hmem
              exact (hsn x hxt) (List.mem_cons_of_mem _ hmem)
        · rintro ⟨hz, hnd, hsn⟩
          rw [List.map_cons, List.nodup_cons] at hnd
          refine ⟨fun x hx => hz x (List.mem_cons_of_mem _ hx), hnd.2, ?_⟩
          intro x hxt hmem
          rcases List.mem_cons.mp hmem with he | hmem2
          · exact hnd.1 (List.mem_map.mpr ⟨x, hxt, he⟩)
          · exact hsn x (List.mem_cons_of_mem _ hxt) hmem2

lemma validateShareIndices_ok_iff (l : List Share) :
    validateShareIndices l = .ok () ↔
      ((∀ s ∈ l, s.index ≠ 0) ∧ (l.map Share.index).Nodup) := by
  rw [validateShareIndices, checkIndices_ok_iff]
  simp

lemma checkLengths_ok_iff (l : List Share) (expected i : Nat) :
    checkLengths l expected i = .ok () ↔
      ∀ s ∈ l, s.value.length = expected := by
  induction l generalizing i with
  | nil => simp [checkLengths]
  | cons s t ih =>
    simp only [checkLengths]
    by_cases h : s.value.length ≠ expected
    · rw [if_pos h]
      simp [h]
    · rw [if_neg h]
      rw [ih]
      push_neg at h
      simp [h]

lemma combine_getD0_take (shares : List Share) (k : Nat) (hk : 1 ≤ k) :
    (shares.take k).getD 0 default = shares.getD 0 default := by
  cases shares with
  | nil => simp
  | cons a t =>
    cases k with
    | zero => omega
    | succ m => rfl

lemma validateCombineParams_ok_iff (shares : List Share) (k : Nat) :
    validateCombineParams shares k = .ok () ↔
      (shares ≠ [] ∧ 2 ≤ k ∧ k ≤ 255 ∧ k ≤ shares.length ∧
       (shares.getD 0 default).value.length ≠ 0 ∧
       (shares.getD 0 default).value.length % 2 = 0 ∧
       ∀ s ∈ shares.take k,
         s.value.length = (shares.getD 0 default).value.length) := by
  simp only [validateCombineParams, MinThreshold, MaxShares]
  by_cases h1 : shares.isEmpty
  · rw [if_pos h1]
    rw [List.isEmpty_iff] at h1
    constructor
    · intro hc
      cases hc
    · rintro ⟨hne, -⟩
      exact absurd h1 hne
  · rw [if_neg h1]
    rw [List.isEmpty_iff] at h1
    by_cases h2 : k < 2
    · rw [if_pos h2]
      constructor
      · intro hc
        cases hc
      · rintro ⟨-, hk2, -⟩
        omega
    · rw [if_neg h2]
      by_cases h3 : k > 255
      · rw [if_pos h3]
        constructor
        · intro hc
          cases hc
        · rintro ⟨-, -, hk255, -⟩
          omega
      · rw [if_neg h3]
        by_cases h4 : shares.length < k
        · rw [if_pos h4]
          constructor
          · intro hc
            cases hc
          · rintro ⟨-, -, -, hkl, -⟩
            omega
        · rw [if_neg h4]
          have hused : (if shares.length > k then shares.take k else shares) =
              shares.take k := by
            split
            · rfl
            · rw [List.take_of_length_le (by omega)]
          rw [hused, combine_getD0_take shares k (by omega)]
          by_cases h5 : (shares.getD 0 default).value.length = 0
          · rw [if_pos h5]
            constructor
            · intro hc
              cases hc
            · rintro ⟨-, -, -, -, hL, -⟩
              exact absurd h5 hL
          · rw [if_neg h5]
            by_cases h6 : (shares.getD 0 default).value.length % 2 ≠ 0
            · rw [if_pos h6]
              constructor
              · intro hc
                cases hc
              · rintro ⟨-, -, -, -, -, hL2, -⟩
                exact absurd hL2 h6
            · rw [if_neg h6]
              push_neg at h6
              rw [checkLengths_ok_iff]
              constructor
              · intro hall
                exact ⟨h1, by omega, by omega, by omega, h5, h6, hall⟩
              · rintro ⟨-, -, -, -, -, -, hall⟩
                exact hall

lemma mapM_ok_forall {α β : Type} (l : List α) (f : α → Except String β)
    (r : List β) (h : l.mapM f = .ok r) : ∀ a ∈ l, ∃ y, f a = .ok y := by
  induction l generalizing r with
  | nil => simp
  | cons a t ih =>
    rw [List.mapM_cons] at h
    cases hfa : f a with
    | error e =>
      rw [hfa] at h
      cases h
    | ok y =>
      rw [hfa] at h
      cases hmt : t.mapM f with
      | error e =>
        rw [hmt] at h
        cases h
      | ok ys =>
        intro x hx
        rcases List.mem_cons.mp hx with rfl | hxt
        · exact ⟨y, hfa⟩
        · exact ih ys hmt x hxt

lemma foldlM_ok_forall (l : List Nat) (f : Int → Nat → Except String Int)
    (init r : Int)
    (hstep : ∀ acc acc2 a, (∃ t, f acc a = .ok t) → ∃ t, f acc2 a = .ok t)
    (h : l.foldlM f init = .ok r) : ∀ a ∈ l, ∀ acc2, ∃ t2, f acc2 a = .ok t2 := by
  induction l generalizing init with
  | nil => simp
  | cons a t ih =>
    rw [List.foldlM_cons] at h
    cases hfa : f init a with
    | error e =>
      rw [hfa] at h
      cases h
    | ok b =>
      rw [hfa] at h
      have hred : (Except.ok b >>= fun b2 => t.foldlM f b2 :
          Except String Int) = t.foldlM f b := rfl
      rw [hred] at h
      intro x hx
      rcases List.mem_cons.mp hx with rfl | hxt
      · exact fun acc2 => hstep init acc2 x ⟨b, hfa⟩
      · exact ih b h x hxt

lemma lagrangeTerm_ok_implies (shares : List Share) (i bytePos : Nat)
    (t : Int) (h : lagrangeTerm shares i bytePos 257 = .ok t) :
    bytePos * 2 + 1 < (shares.getD i default).value.length ∧
    decodeShareValue (shares.getD i default) bytePos < 257 := by
  simp only [lagrangeTerm] at h
  by_cases h1 : (shares.getD i default).value.length ≤ bytePos * 2 + 1
  · rw [if_pos h1] at h
    cases h
  · rw [if_neg h1] at h
    by_cases h2 : FieldPrime ≤ decodeShareValue (shares.getD i default) bytePos
    · rw [if_pos h2] at h
      cases h
    · refine ⟨by omega, ?_⟩
      simp only [FieldPrime] at h2
      omega

lemma lagrangeTerm_acc_independent (shares : List Share) (i bytePos : Nat)
    (acc acc2 : Int)
    (h : ∃ t, (lagrangeTerm shares i bytePos 257).map
      (fun term => (acc + term) % 257) = .ok t) :
    ∃ t, (lagrangeTerm shares i bytePos 257).map
      (fun term => (acc2 + term) % 257) = .ok t := by
  obtain ⟨t, ht⟩ := h
  cases hterm : lagrangeTerm shares i bytePos 257 with
  | error e =>
    rw [hterm] at ht
    cases ht
  | ok v => exact ⟨(acc2 + v) % 257, rfl⟩

lemma lagrangeInterpolate_ok_implies (shares : List Share) (bytePos : Nat)
    (r : Int) (h : lagrangeInterpolate shares bytePos 257 = .ok r) :
    ∀ i, i < shares.length →
      bytePos * 2 + 1 < (shares.getD i default).value.length ∧
      decodeShareValue (shares.getD i default) bytePos < 257 := by
  simp only [lagrangeInterpolate] at h
  by_cases hemp : shares.isEmpty
  · rw [if_pos hemp] at h
    cases h
  · rw [if_neg hemp] at h
    intro i hi
    have hall := foldlM_ok_forall (List.range shares.length)
      (fun result j => (lagrangeTerm shares j bytePos 257).map
        (fun term => (result + term) % 257)) 0 r
      (fun acc acc2 a => lagrangeTerm_acc_independent shares a bytePos acc acc2)
      h i (List.mem_range.mpr hi)
    obtain ⟨t2, ht2⟩ := hall 0
    have ht2b : (lagrangeTerm shares i bytePos 257).map
        (fun term => ((0 : Int) + term) % 257) = .ok t2 := ht2
    cases hterm : lagrangeTerm shares i bytePos 257 with
    | error e =>
      rw [hterm] at ht2b
      have hred : (Except.error e : Except String Int).map
          (fun term => ((0 : Int) + term) % 257) = Except.error e := rfl
      rw [hred] at ht2b
      cases ht2b
    | ok v => exact lagrangeTerm_ok_implies shares i bytePos v hterm

lemma combine_ok_implies (shares : List Share) (k : Nat) (res : List Nat)
    (h : Combine shares k = .ok res) :
    2 ≤ k ∧ k ≤ shares.length ∧
    (∀ s ∈ shares.take k, s.index ≠ 0) ∧
    ((shares.take k).map Share.index).Nodup ∧
    (shares.getD 0 default).value.length ≠ 0 ∧
    (shares.getD 0 default).value.length % 2 = 0 ∧
    (∀ s ∈ shares.take k,
      s.value.length = (shares.getD 0 default).value.length) ∧
    (∀ i, i < k → ∀ p, p < (shares.getD 0 default).value.length / 2 →
      decodeShareValue ((shares.take k).getD i default) p < 257) := by
  cases hv : validateCombineParams shares k with
  | error e =>
    rw [Combine, hv] at h
    cases h
  | ok u =>
    cases u
    cases hvi : validateShareIndices (shares.take k) with
    | error e =>
      rw [Combine, hv, hvi] at h
      cases h
    | ok u2 =>
      cases u2
      rw [Combine, hv, hvi] at h
      obtain ⟨hne, hk2, hk255, hklen, hlen0, hlen2, hlenall⟩ :=
        (validateCombineParams_ok_iff shares k).mp hv
      obtain ⟨hz, hnd⟩ := (validateShareIndices_ok_iff _).mp hvi
      have htl : (shares.take k).length = k := by
        rw [List.length_take]
        omega
      refine ⟨hk2, hklen, hz, hnd, hlen0, hlen2, hlenall, ?_⟩
      intro i hik p hp
      have hint := mapM_ok_forall _ _ _ h p (List.mem_range.mpr hp)
      obtain ⟨y, hy⟩ := hint
      cases hli : lagrangeInterpolate (shares.take k) p FieldPrime with
      | error e =>
        rw [hli] at hy
        cases hy
      | ok r =>
        have hli257 : lagrangeInterpolate (shares.take k) p 257 = .ok r := hli
        exact (lagrangeInterpolate_ok_implies (shares.take k) p r hli257 i
          (by omega)).2

/-- C6: `Combine` returns an error (and hence no secret) whenever, among
the shares it actually uses (the first `threshold`): an index is zero,
indices are duplicated, value lengths are empty, odd, or inconsistent with
the first share's, or a decoded 2-byte element is out of field range; and
whenever fewer than `threshold` shares are supplied.  And, the result being
an `Except`, an error is never accompanied by a partial secret. -/
theorem combine_error_conditions (shares : List Share) (k : Nat) :
    (shares.length < k → ∃ e, Combine shares k = .error e) ∧
    ((∃ s ∈ shares.take k, s.index = 0) → ∃ e, Combine shares k = .error e) ∧
    (¬ ((shares.take k).map Share.index).Nodup →
      ∃ e, Combine shares k = .error e) ∧
    ((shares.getD 0 default).value.length = 0 ∨
      (shares.getD 0 default).value.length % 2 ≠ 0 ∨
      (∃ s ∈ shares.take k,
        s.value.length ≠ (shares.getD 0 default).value.length) →
      ∃ e, Combine shares k = .error e) ∧
    ((∃ i, i < k ∧ ∃ p, p < (shares.getD 0 default).value.length / 2 ∧
        257 ≤ decodeShareValue ((shares.take k).getD i default) p) →
      ∃ e, Combine shares k = .error e) ∧
    (∀ e res, ¬ (Combine shares k = .error e ∧ Combine shares k = .ok res)) := by
  have herr : ∀ P : Prop,
      (∀ res, Combine shares k = .ok res → ¬ P) →
      (P → ∃ e, Combine shares k = .error e) := by
    intro P hP hp
    cases hres : Combine shares k with
    | error e => exact ⟨e, rfl⟩
    | ok res => exact absurd hp (hP res hres)
  refine ⟨herr _ ?_, herr _ ?_, herr _ ?_, herr _ ?_, herr _ ?_, ?_⟩
  · intro res hres
    have := (combine_ok_implies shares k res hres).2.1
    omega
  · intro res hres
    rintro ⟨s, hs, hz⟩
    exact (combine_ok_implies shares k res hres).2.2.1 s hs hz
  · intro res hres hnd
    exact hnd (combine_ok_implies shares k res hres).2.2.2.1
  · intro res hres hbad
    obtain ⟨-, -, -, -, hlen0, hlen2, hlenall, -⟩ :=
      combine_ok_implies shares k res hres
    rcases hbad with h0 | hodd | ⟨s, hs, hne⟩
    · exact hlen0 h0
    · exact hodd hlen2
    · exact hne (hlenall s hs)
  · intro res hres
    rintro ⟨i, hik, p, hp, hdec⟩
    have := (combine_ok_implies shares k res hres).2.2.2.2.2.2.2 i hik p hp
    omega
  · intro e res
    rintro ⟨h1, h2⟩
    rw [h1] at h2
    cases h2

/-- Witness for C6: a zero share index makes `Combine` fail. -/
theorem combine_error_conditions_witness :
    ∃ e, Combine [Share.mk 0 [1, 0], Share.mk 2 [3, 0]] 2 = .error e :=
  (combine_error_conditions [Share.mk 0 [1, 0], Share.mk 2 [3, 0]] 2).2.1
    ⟨Share.mk 0 [1, 0], by decide, rfl⟩

/-! ### Horner evaluation in `ZMod 257` -/

lemma evaluatePolynomial_cast (cs : List Int) (x : Int) :
    ((evaluatePolynomial cs x 257 : Int) : ZMod 257) =
      (cs.map (fun c : Int => (c : ZMod 257))).foldr
        (fun c acc => acc * ((x : Int) : ZMod 257) + c) 0 := by
  induction cs with
  | nil => simp [evaluatePolynomial]
  | cons c rest ih =>
    cases rest with
    | nil => simp [evaluatePolynomial]
    | cons c2 rest2 =>
      show (((evaluatePolynomial (c2 :: rest2) x 257 * x + c) % 257 : Int) :
        ZMod 257) = _
      rw [intCast_mod257, Int.cast_add, Int.cast_mul, ih]
      simp

lemma evaluatePolynomial_bounds (cs : List Int) (x : Int) (h : 2 ≤ cs.length) :
    0 ≤ evaluatePolynomial cs x 257 ∧ evaluatePolynomial cs x 257 < 257 := by
  cases cs with
  | nil => simp at h
  | cons c rest =>
    cases rest with
    | nil => simp at h
    | cons c2 rest2 =>
      show 0 ≤ (evaluatePolynomial (c2 :: rest2) x 257 * x + c) % 257 ∧
        (evaluatePolynomial (c2 :: rest2) x 257 * x + c) % 257 < 257
      exact ⟨Int.emod_nonneg _ (by norm_num),
        Int.emod_lt_of_pos _ (by norm_num)⟩

lemma hornerF_eq_sum (l : List (ZMod 257)) (x : ZMod 257) :
    l.foldr (fun c acc => acc * x + c) 0 =
      ∑ i ∈ Finset.range l.length, l.getD i 0 * x ^ i := by
  induction l with
  | nil => simp
  | cons c t ih =>
    rw [List.foldr_cons, ih, List.length_cons, Finset.sum_range_succ']
    simp only [List.getD_cons_succ, List.getD_cons_zero, pow_succ, pow_zero,
      one_mul, mul_one]
    rw [Finset.sum_mul]
    congr 1
    refine Finset.sum_congr rfl (fun i _ => ?_)
    ring

lemma polyOf_eval (l : List (ZMod 257)) (x : ZMod 257) :
    (∑ i ∈ Finset.range l.length,
      Polynomial.C (l.getD i 0) * Polynomial.X ^ i).eval x =
      l.foldr (fun c acc => acc * x + c) 0 := by
  rw [Polynomial.eval_finset_sum, hornerF_eq_sum]
  refine Finset.sum_congr rfl (fun i _ => ?_)
  rw [Polynomial.eval_mul, Polynomial.eval_C, Polynomial.eval_pow,
    Polynomial.eval_X]

lemma polyOf_degree_lt (l : List (ZMod 257)) :
    (∑ i ∈ Finset.range l.length,
      Polynomial.C (l.getD i 0) * Polynomial.X ^ i).degree <
      (l.length : WithBot Nat) := by
  refine lt_of_le_of_lt (Polynomial.degree_sum_le _ _) ?_
  rw [Finset.sup_lt_iff (by exact WithBot.bot_lt_coe _)]
  intro i hi
  refine lt_of_le_of_lt (Polynomial.degree_C_mul_X_pow_le _ _) ?_
  exact_mod_cast Finset.mem_range.mp hi

lemma idxInt_cast_inj (used : List Share)
    (hidx : ∀ s ∈ used, 1 ≤ s.index ∧ s.index ≤ 255)
    (hnd : (used.map Share.index).Nodup) :
    ∀ a ∈ Finset.range used.length, ∀ b ∈ Finset.range used.length,
      ((idxInt used a : Int) : ZMod 257) = ((idxInt used b : Int) : ZMod 257) →
      a = b := by
  intro a ha b hb heq
  have halt := Finset.mem_range.mp ha
  have hblt := Finset.mem_range.mp hb
  have hba := hidx _ (share_getD_mem used halt)
  have hbb := hidx _ (share_getD_mem used hblt)
  have hInt : idxInt used a = idxInt used b := by
    refine intCast257_inj ?_ ?_ ?_ ?_ heq
    · exact Int.natCast_nonneg _
    · exact lt_of_le_of_lt
        (show idxInt used a ≤ 255 by unfold idxInt; exact_mod_cast hba.2)
        (by norm_num)
    · exact Int.natCast_nonneg _
    · exact lt_of_le_of_lt
        (show idxInt used b ≤ 255 by unfold idxInt; exact_mod_cast hbb.2)
        (by norm_num)
  have hNat : (used.getD a default).index = (used.getD b default).index := by
    unfold idxInt at hInt
    exact_mod_cast hInt
  exact index_getD_inj used hnd halt hblt hNat

/-! ### Lagrange interpolation at the origin recovers the constant term -/

lemma sum_lagrange_at_zero (m : Nat) (v r : Nat → ZMod 257)
    (hinj : ∀ a ∈ Finset.range m, ∀ b ∈ Finset.range m, v a = v b → a = b)
    (f : Polynomial (ZMod 257)) (hdeg : f.degree < (m : WithBot Nat))
    (hr : ∀ i, i < m → r i = f.eval (v i)) :
    (∑ i ∈ Finset.range m, r i *
      ((∏ j ∈ (Finset.range m).erase i, (-(v j))) *
       (∏ j ∈ (Finset.range m).erase i, (v i - v j))⁻¹)) = f.eval 0 := by
  have hvs : Set.InjOn v (Finset.range m) := by
    intro a ha b hb hab
    exact hinj a (by simpa using ha) b (by simpa using hb) hab
  have hfi := Lagrange.eq_interpolate hvs
    (by rw [Finset.card_range]; exact hdeg)
  have heval : f.eval 0 = Polynomial.eval 0
      (Lagrange.interpolate (Finset.range m) v (fun i => f.eval (v i))) := by
    conv_lhs => rw [hfi]
  rw [heval, Lagrange.interpolate_apply, Polynomial.eval_finset_sum]
  refine Finset.sum_congr rfl (fun i hi => ?_)
  rw [Polynomial.eval_mul, Polynomial.eval_C]
  rw [hr i (Finset.mem_range.mp hi)]
  congr 1
  rw [Lagrange.basis, Polynomial.eval_prod]
  have hbd : ∀ j, Polynomial.eval 0 (Lagrange.basisDivisor (v i) (v j)) =
      (v i - v j)⁻¹ * (-(v j)) := by
    intro j
    rw [Lagrange.basisDivisor, Polynomial.eval_mul, Polynomial.eval_C,
      Polynomial.eval_sub, Polynomial.eval_X, Polynomial.eval_C]
    ring
  rw [Finset.prod_congr rfl (fun j _ => hbd j), Finset.prod_mul_distrib,
    ← Finset.prod_inv_distrib]
  ring

/-! ### The interpolation fold computes the Lagrange sum -/

lemma interpolateFold_ok (shares : List Share) (bytePos : Nat) (m : Nat)
    (t : Nat → Int)
    (hterm : ∀ i, i < m → lagrangeTerm shares i bytePos 257 = .ok (t i)) :
    ∃ r : Int, ((List.range m).foldlM
        (fun result i => (lagrangeTerm shares i bytePos 257).map
          (fun term => (result + term) % 257)) (0 : Int)) = .ok r ∧
      0 ≤ r ∧ r < 257 ∧
      (r : ZMod 257) = ∑ i ∈ Finset.range m, ((t i : Int) : ZMod 257) := by
  induction m with
  | zero => exact ⟨0, rfl, le_refl 0, by norm_num, by simp⟩
  | succ m ih =>
    obtain ⟨r, hr, hr0, hrlt, hrcast⟩ := ih (fun i hi => hterm i (by omega))
    refine ⟨(r + t m) % 257, ?_, Int.emod_nonneg _ (by norm_num),
      Int.emod_lt_of_pos _ (by norm_num), ?_⟩
    · rw [List.range_succ, List.foldlM_append, hr]
      have hred : ((Except.ok r : Except String Int) >>=
          fun b => [m].foldlM (fun result i =>
            (lagrangeTerm shares i bytePos 257).map
              (fun term => (result + term) % 257)) b) =
          [m].foldlM (fun result i =>
            (lagrangeTerm shares i bytePos 257).map
              (fun term => (result + term) % 257)) r := rfl
      rw [hred, List.foldlM_cons, hterm m (by omega)]
      rfl
    · rw [intCast_mod257, Int.cast_add, hrcast, Finset.sum_range_succ]

/-- With well-formed distinct indices and share values that encode the
evaluations of one coefficient list `cs` at the shares' own x-coordinates,
`lagrangeInterpolate` succeeds and returns the canonical representative of
the polynomial's constant term. -/
lemma lagrangeInterpolate_correct (used : List Share) (cs : List Int)
    (bytePos : Nat) (hm2 : 2 ≤ used.length) (hlen : cs.length = used.length)
    (hidx : ∀ s ∈ used, 1 ≤ s.index ∧ s.index ≤ 255)
    (hnd : (used.map Share.index).Nodup)
    (hval : ∀ i, i < used.length →
      bytePos * 2 + 1 < (used.getD i default).value.length ∧
      decodeShareValue (used.getD i default) bytePos =
        evaluatePolynomial cs (idxInt used i) 257) :
    lagrangeInterpolate used bytePos 257 = .ok (cs.headI % 257) := by
  have hcs2 : 2 ≤ cs.length := by omega
  have hterm : ∀ i, i < used.length → ∃ t : Int,
      lagrangeTerm used i bytePos 257 = .ok t ∧ 0 ≤ t ∧ t < 257 ∧
      (t : ZMod 257) =
        ((decodeShareValue (used.getD i default) bytePos : Int) : ZMod 257) *
        (((lagrangeNumDen used (idxInt used i) i 257).1 : ZMod 257) *
         (((lagrangeNumDen used (idxInt used i) i 257).2 : ZMod 257))⁻¹) := by
    intro i hi
    refine lagrangeTerm_ok used i bytePos (hval i hi).1 ?_
      (lagrangeNumDen_den_ne_zero used i hi hidx hnd)
    rw [(hval i hi).2]
    exact (evaluatePolynomial_bounds cs _ hcs2).2
  obtain ⟨r, hfold, hr0, hrlt, hrcast⟩ := interpolateFold_ok used bytePos
    used.length
    (fun i => if h : i < used.length then (hterm i h).choose else 0)
    (fun i hi => by
      simp only [dif_pos hi]
      exact (hterm i hi).choose_spec.1)
  have hne : used.isEmpty = false := by
    rw [List.isEmpty_eq_false]
    intro hc
    rw [hc] at hm2
    simp at hm2
  have hinterp : lagrangeInterpolate used bytePos 257 = .ok r := by
    simp only [lagrangeInterpolate, hne, Bool.false_eq_true, if_false]
    exact hfold
  rw [hinterp]
  congr 1
  have hsum : (r : ZMod 257) =
      ∑ i ∈ Finset.range used.length,
        ((decodeShareValue (used.getD i default) bytePos : Int) : ZMod 257) *
        ((∏ j ∈ (Finset.range used.length).erase i,
            (-((idxInt used j : Int) : ZMod 257))) *
         (∏ j ∈ (Finset.range used.length).erase i,
            (((idxInt used i : Int) : ZMod 257) -
              ((idxInt used j : Int) : ZMod 257)))⁻¹) := by
    rw [hrcast]
    refine Finset.sum_congr rfl (fun i hi => ?_)
    have hi2 := Finset.mem_range.mp hi
    simp only [dif_pos hi2]
    rw [(hterm i hi2).choose_spec.2.2.2]
    rw [(lagrangeNumDen_cast used (idxInt used i) i).1,
      (lagrangeNumDen_cast used (idxInt used i) i).2]
  have hrfun : ∀ i, i < used.length →
      ((decodeShareValue (used.getD i default) bytePos : Int) : ZMod 257) =
      Polynomial.eval ((idxInt used i : Int) : ZMod 257)
        (∑ i ∈ Finset.range (cs.map (fun c : Int => (c : ZMod 257))).length,
          Polynomial.C ((cs.map (fun c : Int => (c : ZMod 257))).getD i 0) *
            Polynomial.X ^ i) := by
    intro i hi
    rw [(hval i hi).2, evaluatePolynomial_cast, polyOf_eval]
  have hlag := sum_lagrange_at_zero used.length
    (fun j => ((idxInt used j : Int) : ZMod 257))
    (fun i => ((decodeShareValue (used.getD i default) bytePos : Int) : ZMod 257))
    (idxInt_cast_inj used hidx hnd)
    (∑ i ∈ Finset.range (cs.map (fun c : Int => (c : ZMod 257))).length,
      Polynomial.C ((cs.map (fun c : Int => (c : ZMod 257))).getD i 0) *
        Polynomial.X ^ i)
    (by
      refine lt_of_lt_of_le (polyOf_degree_lt _) ?_
      simp [hlen])
    (fun i hi => hrfun i hi)
  have hhead : (∑ i ∈ Finset.range (cs.map (fun c : Int => (c : ZMod 257))).length,
      Polynomial.C ((cs.map (fun c : Int => (c : ZMod 257))).getD i 0) *
        Polynomial.X ^ i).eval 0 = ((cs.headI : Int) : ZMod 257) := by
    rw [polyOf_eval]
    cases cs with
    | nil => simp at hcs2
    | cons c rest => simp
  refine intCast257_inj hr0 hrlt (Int.emod_nonneg _ (by norm_num))
    (Int.emod_lt_of_pos _ (by norm_num)) ?_
  rw [intCast_mod257, hsum, hlag, hhead]

/-! ### Hex codec round trip -/

lemma decDigitChar_ne_colon : ∀ d, d < 10 → decDigitChar d ≠ ':' := by decide

lemma natToDecCore_chars (fuel : Nat) :
    ∀ n, ∀ c ∈ natToDecCore fuel n, ∃ d, d < 10 ∧ c = decDigitChar d := by
  induction fuel with
  | zero => simp [natToDecCore]
  | succ fuel ih =>
    intro n c hc
    simp only [natToDecCore] at hc
    split at hc
    · cases hc
    · rcases List.mem_append.mp hc with h | h
      · exact ih _ c h
      · rw [List.mem_singleton] at h
        exact ⟨n % 10, Nat.mod_lt _ (by norm_num), h⟩

lemma natToDecChars_no_colon (n : Nat) : ∀ c ∈ natToDecChars n, c ≠ ':' := by
  intro c hc
  unfold natToDecChars at hc
  split at hc
  · rw [List.mem_singleton] at hc
    subst hc
    decide
  · obtain ⟨d, hd, rfl⟩ := natToDecCore_chars _ _ c hc
    exact decDigitChar_ne_colon d hd

lemma splitFirstColon_append (A B : List Char) (hA : ∀ c ∈ A, c ≠ ':') :
    splitFirstColon (A ++ ':' :: B) = some (A, B) := by
  induction A with
  | nil => simp [splitFirstColon]
  | cons c t ih =>
    simp only [List.cons_append, splitFirstColon, List.append_eq]
    rw [if_neg (hA c (List.mem_cons_self _ _))]
    rw [ih (fun x hx => hA x (List.mem_cons_of_mem _ hx))]
    rfl

set_option maxRecDepth 4096 in
lemma hexDigit_roundtrip : ∀ b, b < 256 →
    hexDigitVal (hexDigitChar (b / 16)) = some (b / 16) ∧
    hexDigitVal (hexDigitChar (b % 16)) = some (b % 16) := by decide

lemma hexDecode_encode (bs : List Nat) (h : ∀ b ∈ bs, b < 256) :
    hexDecode (hexEncodeBytes bs) = some bs := by
  induction bs with
  | nil => rfl
  | cons b t ih =>
    have hb := h b (List.mem_cons_self _ _)
    have henc : hexEncodeBytes (b :: t) =
        hexDigitChar (b / 16) :: hexDigitChar (b % 16) :: hexEncodeBytes t := rfl
    rw [henc]
    simp only [hexDecode]
    rw [(hexDigit_roundtrip b hb).1, (hexDigit_roundtrip b hb).2,
      ih (fun x hx => h x (List.mem_cons_of_mem _ hx))]
    have hb2 : b / 16 * 16 + b % 16 = b := by omega
    simp [hb2]

lemma hexEncodeBytes_ne_nil (bs : List Nat) (h : bs ≠ []) :
    hexEncodeBytes bs ≠ [] := by
  cases bs with
  | nil => exact absurd rfl h
  | cons b t => simp [hexEncodeBytes]

set_option maxRecDepth 8192 in
lemma parseUint8_format : ∀ n, n < 256 → parseUint8 (natToDecChars n) = some n := by
  decide

lemma decodeShareFromHex_encode (s : Share) (h1 : 1 ≤ s.index)
    (h2 : s.index ≤ 255) (h3 : s.value ≠ []) (h4 : ∀ b ∈ s.value, b < 256) :
    decodeShareFromHex (encodeShareToHex s) = .ok s := by
  have hA : (natToDecChars s.index).isEmpty = false := by
    rw [List.isEmpty_eq_false]
    exact natToDecChars_ne_nil s.index
  have hB : (hexEncodeBytes s.value).isEmpty = false := by
    rw [List.isEmpty_eq_false]
    exact hexEncodeBytes_ne_nil s.value h3
  have hE : (natToDecChars s.index ++ ':' :: hexEncodeBytes s.value).isEmpty
      = false := by
    rw [List.isEmpty_eq_false]
    intro hc
    exact natToDecChars_ne_nil s.index (List.append_eq_nil.mp hc).1
  have hV : s.value.isEmpty = false := by
    rw [List.isEmpty_eq_false]
    exact h3
  simp only [decodeShareFromHex, encodeShareToHex, hE,
    splitFirstColon_append _ _ (natToDecChars_no_colon s.index),
    parseUint8_format s.index (by omega),
    hexDecode_encode s.value h4, hA, hB, hV, Bool.false_eq_true, if_false,
    or_self, if_neg (by omega : ¬ s.index = 0)]

lemma decodeSharesLoop_encode (shares : List Share) (i : Nat)
    (hvalid : ∀ s ∈ shares, 1 ≤ s.index ∧ s.index ≤ 255 ∧ s.value ≠ [] ∧
      ∀ b ∈ s.value, b < 256) :
    decodeSharesLoop (shares.map encodeShareToHex) i = .ok shares := by
  induction shares generalizing i with
  | nil => rfl
  | cons s t ih =>
    obtain ⟨h1, h2, h3, h4⟩ := hvalid s (List.mem_cons_self _ _)
    simp only [List.map_cons, decodeSharesLoop]
    rw [decodeShareFromHex_encode s h1 h2 h3 h4]
    rw [ih (i + 1) (fun x hx => hvalid x (List.mem_cons_of_mem _ hx))]
    rfl

/-- C9: for every collection of well-formed shares (index in `[1, 255]`,
non-empty byte value), hex-encoding and then hex-decoding succeeds and
returns the original shares, index and value alike; and both directions map
an empty collection to an empty collection without error. -/
theorem hex_roundtrip (shares : List Share)
    (hvalid : ∀ s ∈ shares, 1 ≤ s.index ∧ s.index ≤ 255 ∧ s.value ≠ [] ∧
      ∀ b ∈ s.value, b < 256) :
    EncodeSharesToHex (some shares) = .ok (shares.map encodeShareToHex) ∧
    DecodeSharesFromHex (some (shares.map encodeShareToHex)) = .ok shares ∧
    EncodeSharesToHex (some []) = .ok [] ∧
    DecodeSharesFromHex (some []) = .ok [] := by
  refine ⟨?_, ?_, rfl, rfl⟩
  · cases shares with
    | nil => rfl
    | cons s t => rfl
  · cases hsh : shares with
    | nil => rfl
    | cons s t =>
      show decodeSharesLoop ((s :: t).map encodeShareToHex) 0 = .ok (s :: t)
      exact decodeSharesLoop_encode (s :: t) 0 (hsh ▸ hvalid)

/-- Witness for C9 at a concrete share collection. -/
theorem hex_roundtrip_witness :
    DecodeSharesFromHex
      (some ([Share.mk 1 [0, 255]].map encodeShareToHex)) =
      .ok [Share.mk 1 [0, 255]] :=
  (hex_roundtrip [Share.mk 1 [0, 255]] (by decide)).2.1

/-! ### Claim theorems: parameter validation and coefficients -/

lemma generatePolynomialCoeffs_length (b k : Nat) (rnd : Nat → Int) (hk : 1 ≤ k) :
    (generatePolynomialCoeffs b k rnd).length = k := by
  simp [generatePolynomialCoeffs]
  omega

lemma generatePolynomialCoeffs_getD (b k : Nat) (rnd : Nat → Int) (i : Nat)
    (h1 : 1 ≤ i) (h2 : i < k) :
    (generatePolynomialCoeffs b k rnd).getD i 0 = rnd i := by
  obtain ⟨j, rfl⟩ : ∃ j, i = j + 1 := ⟨i - 1, by omega⟩
  simp only [generatePolynomialCoeffs, List.getD_cons_succ]
  rw [List.getD_eq_getElem?_getD, List.getElem?_map, List.getElem?_range (by omega)]
  simp

/-- C4: for each secret byte, the polynomial built by
`generatePolynomialCoeffs` has the byte itself as constant term, its
remaining `k - 1` coefficients are exactly the successive draws of the
`crypto/rand` oracle (which by the `rand.Int(reader, prime)` contract is
uniform on `[0, FieldPrime)`), and every value in `[0, 257)` — in
particular 256 — is attainable for each random coefficient. -/
theorem coefficient_generation (b k : Nat) (rnd : Nat → Int) (hk : 2 ≤ k) :
    (generatePolynomialCoeffs b k rnd).length = k ∧
    (generatePolynomialCoeffs b k rnd).headI = (b : Int) ∧
    (∀ i, 1 ≤ i → i < k → (generatePolynomialCoeffs b k rnd).getD i 0 = rnd i) ∧
    (∀ v : Int, 0 ≤ v → v < FieldPrime →
      ∃ rnd2 : Nat → Int, (∀ j, 0 ≤ rnd2 j ∧ rnd2 j < FieldPrime) ∧
        ∀ i, 1 ≤ i → i < k → (generatePolynomialCoeffs b k rnd2).getD i 0 = v) := by
  refine ⟨generatePolynomialCoeffs_length b k rnd (by omega), rfl,
    fun i h1 h2 => generatePolynomialCoeffs_getD b k rnd i h1 h2,
    fun v hv0 hv1 => ⟨fun _ => v, fun j => ⟨hv0, hv1⟩,
      fun i h1 h2 => generatePolynomialCoeffs_getD b k _ i h1 h2⟩⟩

/-- Witness for C4 at concrete inputs. -/
theorem coefficient_generation_witness :
    (generatePolynomialCoeffs 5 3 (fun j => (j : Int))).headI = (5 : Int) :=
  (coefficient_generation 5 3 (fun j => (j : Int)) (by decide)).2.1

/-! ### Closed form of Split -/

lemma Share.mk_eta (s : Share) : Share.mk s.index s.value = s := rfl

lemma foldl_splitAppendByte (k : Nat) (rnd : Nat → Nat → Int)
    (l : List (Nat × Nat)) (shares : List Share) :
    l.foldl (fun sh pb =>
        splitAppendByte sh (generatePolynomialCoeffs pb.2 k (rnd pb.1)) FieldPrime)
      shares =
    shares.map (fun s =>
      Share.mk s.index (s.value ++ l.flatMap (fun pb =>
        encodePoint (generatePolynomialCoeffs pb.2 k (rnd pb.1))
          (s.index : Int) FieldPrime))) := by
  induction l generalizing shares with
  | nil => simp [Share.mk_eta]
  | cons pb t ih =>
    rw [List.foldl_cons, ih]
    unfold splitAppendByte
    rw [List.map_map]
    refine List.map_congr_left (fun s _ => ?_)
    simp [Function.comp, List.append_assoc]

lemma split_ok_eq (secret : List Nat) (n k : Nat) (rnd : Nat → Nat → Int)
    (hok : validateSplitParams secret n k = .ok ()) :
    Split secret n k rnd = .ok ((List.range n).map (fun i =>
      Share.mk (i + 1) (splitValue secret k rnd ((i + 1 : Nat) : Int)))) := by
  unfold Split
  rw [hok]
  refine congrArg Except.ok ?_
  rw [foldl_splitAppendByte, List.map_map]
  exact List.map_congr_left (fun i _ => by simp [splitValue, Function.comp])

lemma length_flatMap_pairs {α β : Type} (l : List α) (f : α → List β)
    (h : ∀ a, (f a).length = 2) : (l.flatMap f).length = 2 * l.length := by
  induction l with
  | nil => simp
  | cons a t ih =>
    simp only [List.flatMap_cons, List.length_append, h, ih, List.length_cons]
    omega

lemma splitValue_length (secret : List Nat) (k : Nat) (rnd : Nat → Nat → Int)
    (x : Int) : (splitValue secret k rnd x).length = 2 * secret.length := by
  unfold splitValue
  rw [length_flatMap_pairs secret.enum
    (fun pb => encodePoint (generatePolynomialCoeffs pb.2 k (rnd pb.1)) x FieldPrime)
    (fun pb => rfl), List.enum_length]

/-- C3: a successful `Split` returns exactly `totalShares` shares, with
indices `1, 2, ..., totalShares` in order (hence pairwise distinct and
never 0), and every share's value has length `2 * len(secret)`. -/
theorem split_share_shape (secret : List Nat) (n k : Nat)
    (rnd : Nat → Nat → Int) (shares : List Share)
    (h : Split secret n k rnd = .ok shares) :
    shares.length = n ∧
    (∀ i, i < n → (shares.getD i default).index = i + 1) ∧
    (∀ s ∈ shares, s.value.length = 2 * secret.length) ∧
    (shares.map Share.index).Nodup ∧
    (∀ s ∈ shares, s.index ≠ 0) := by
  have hok : validateSplitParams secret n k = .ok () := by
    cases hv : validateSplitParams secret n k with
    | error e => rw [Split, hv] at h; cases h
    | ok u => rfl
  rw [split_ok_eq secret n k rnd hok] at h
  have hsh : shares = (List.range n).map (fun i =>
      Share.mk (i + 1) (splitValue secret k rnd ((i + 1 : Nat) : Int))) := by
    cases h; rfl
  subst hsh
  refine ⟨by simp, fun i hi => ?_, fun s hs => ?_, ?_, fun s hs => ?_⟩
  · rw [List.getD_eq_getElem?_getD, List.getElem?_map,
      List.getElem?_range hi]
    rfl
  · obtain ⟨i, _, rfl⟩ := List.mem_map.mp hs
    exact splitValue_length secret k rnd _
  · rw [List.map_map]
    have : (Share.index ∘ fun i =>
        Share.mk (i + 1) (splitValue secret k rnd ((i + 1 : Nat) : Int))) =
        (fun i => i + 1) := rfl
    rw [this]
    exact List.Nodup.map (fun a b hab => by omega) (List.nodup_range n)
  · obtain ⟨i, _, rfl⟩ := List.mem_map.mp hs
    simp

/-- Witness for C3 at concrete inputs. -/
theorem split_share_shape_witness :
    ([Share.mk 1 [20, 0, 56, 0], Share.mk 2 [33, 0, 169, 0],
      Share.mk 3 [46, 0, 25, 0]] : List Share).length = 3 :=
  (split_share_shape [7, 200] 3 2 (fun p i => (p * 100 + i * 13 : Int)) _
    (by rfl)).1

/-! ### Combine consumes only the first `threshold` shares -/

lemma validateCombineParams_take (shares : List Share) (k : Nat)
    (hk : 1 ≤ k) (hlen : k ≤ shares.length) :
    validateCombineParams (shares.take k) k = validateCombineParams shares k := by
  have htl : (shares.take k).length = k := by
    rw [List.length_take]; omega
  have h1 : shares.isEmpty = false := by
    cases shares with
    | nil => simp at hlen; omega
    | cons a t => rfl
  have h2 : (shares.take k).isEmpty = false := by
    rw [List.isEmpty_eq_false]
    intro hnil
    rw [← List.length_eq_zero, htl] at hnil
    omega
  by_cases hgt : shares.length > k
  · unfold validateCombineParams
    rw [h1, h2, htl]
    simp only [Bool.false_eq_true, if_false, lt_irrefl, gt_iff_lt,
      lt_self_iff_false, if_neg hgt.not_lt, if_pos hgt, List.take_take,
      min_self]
  · have hsk : shares.take k = shares :=
      List.take_of_length_le (by omega)
    rw [hsk]

/-- C5: when `Combine` is given at least `threshold` shares, its whole
result (success or failure, and every consistency check) is that of
`Combine` on the first `threshold` shares alone, so surplus shares — even
corrupt ones — are never examined.  (For `threshold = 0` with a non-empty
share list, both calls still fail, but with different `InvalidParameter`
messages, hence the `1 ≤ threshold` hypothesis.) -/
theorem combine_first_threshold (shares : List Share) (k : Nat)
    (hk : 1 ≤ k) (hlen : k ≤ shares.length) :
    Combine shares k = Combine (shares.take k) k := by
  unfold Combine
  rw [validateCombineParams_take shares k hk hlen, List.take_take, min_self,
    combine_getD0_take shares k hk]

/-- Witness for C5: a surplus third share with an inconsistent value length
does not affect the result of a 2-of-n reconstruction. -/
theorem combine_first_threshold_witness :
    Combine [Share.mk 1 [20, 0], Share.mk 2 [33, 0], Share.mk 9 [1, 2, 3]] 2 =
      Combine [Share.mk 1 [20, 0], Share.mk 2 [33, 0]] 2 :=
  combine_first_threshold
    [Share.mk 1 [20, 0], Share.mk 2 [33, 0], Share.mk 9 [1, 2, 3]] 2
    (by decide) (by decide)

/-- C7: `Split` fails, returning an error and no shares, exactly when the
secret is empty, the threshold is outside `[2, 255]`, or the share count is
outside `[threshold, 255]`; and on any such violation the result does not
depend on the randomness oracle at all (validation precedes every random
draw, so no partial shares are produced). -/
theorem split_param_validation
    (secret : List Nat) (n k : Nat) (rnd rnd2 : Nat → Nat → Int) :
    ((∃ e, Split secret n k rnd = .error e) ↔
      (secret = [] ∨ k < 2 ∨ 255 < k ∨ n < k ∨ 255 < n)) ∧
    ((secret = [] ∨ k < 2 ∨ 255 < k ∨ n < k ∨ 255 < n) →
      Split secret n k rnd = Split secret n k rnd2) := by
  unfold Split validateSplitParams MinThreshold MaxShares
  split_ifs with h1 h2 h3 h4 h5 <;>
    simp_all [List.isEmpty_iff]

/-- Witness for C7 at concrete inputs (threshold below 2). -/
theorem split_param_validation_witness :
    Split [1, 2] 5 1 (fun _ _ => 0) = Split [1, 2] 5 1 (fun _ _ => 9) :=
  (split_param_validation [1, 2] 5 1 (fun _ _ => 0) (fun _ _ => 9)).2
    (by simp)

/-- C10: the hex codec distinguishes Go `nil` slices from empty slices:
`nil` inputs are rejected with the dedicated errors `ErrNilShares` and
`ErrNilEncoded`, while empty collections encode and decode to empty
collections without error. -/
theorem hex_codec_nil_vs_empty :
    EncodeSharesToHex none = .error "shares cannot be nil" ∧
    DecodeSharesFromHex none = .error "encoded data cannot be nil" ∧
    EncodeSharesToHex (some []) = .ok [] ∧
    DecodeSharesFromHex (some []) = .ok [] :=
  ⟨rfl, rfl, rfl, rfl⟩

/-! ### Decoding a Split-produced value buffer -/

lemma flatMap_pair_getD {α : Type} (l : List α) (F : α → List Nat)
    (f g : α → Nat) (d : α) (hF : ∀ a, F a = [f a, g a]) :
    ∀ p, p < l.length →
      (l.flatMap F).getD (p * 2) 0 = f (l.getD p d) ∧
      (l.flatMap F).getD (p * 2 + 1) 0 = g (l.getD p d) := by
  induction l with
  | nil =>
    intro p hp
    simp at hp
  | cons a t ih =>
    intro p hp
    rcases p with - | p
    · rw [List.flatMap_cons, hF a]
      exact ⟨rfl, rfl⟩
    · have hp2 : p < t.length := by simpa using hp
      have h1 : (p + 1) * 2 = p * 2 + 1 + 1 := by ring
      rw [List.flatMap_cons, hF a, h1]
      simp only [List.getD_cons_succ]
      exact ih p hp2

lemma enum_getD (l : List Nat) (p : Nat) (hp : p < l.length) :
    l.enum.getD p (0, 0) = (p, l.getD p 0) := by
  rw [List.getD_eq_getElem?_getD,
    show l.enum = l.enumFrom 0 from rfl, List.getElem?_enumFrom,
    List.getElem?_eq_getElem hp]
  rw [List.getD_eq_getElem?_getD, List.getElem?_eq_getElem hp]
  simp

lemma nat_getD_mem (l : List Nat) {p : Nat} (hp : p < l.length) :
    l.getD p 0 ∈ l := by
  rw [List.getD_eq_getElem?_getD, List.getElem?_eq_getElem hp]
  exact List.getElem_mem hp

lemma splitValue_decode (secret : List Nat) (k : Nat) (rnd : Nat → Nat → Int)
    (x : Int) (idx p : Nat) (hp : p < secret.length) (hk : 2 ≤ k) :
    decodeShareValue (Share.mk idx (splitValue secret k rnd x)) p =
      evaluatePolynomial
        (generatePolynomialCoeffs (secret.getD p 0) k (rnd p)) x 257 := by
  have hpe : p < secret.enum.length := by simpa using hp
  have hpair := flatMap_pair_getD secret.enum
    (fun pb => encodePoint (generatePolynomialCoeffs pb.2 k (rnd pb.1)) x
      FieldPrime)
    (fun pb => ((evaluatePolynomial (generatePolynomialCoeffs pb.2 k (rnd pb.1))
      x FieldPrime) % 256).toNat)
    (fun pb => ((evaluatePolynomial (generatePolynomialCoeffs pb.2 k (rnd pb.1))
      x FieldPrime) / 256).toNat)
    (0, 0) (fun a => rfl) p hpe
  have hget := enum_getD secret p hp
  rw [hget] at hpair
  show ((splitValue secret k rnd x).getD (p * 2) 0 : Int) +
      ((splitValue secret k rnd x).getD (p * 2 + 1) 0 : Int) * 256 = _
  rw [show splitValue secret k rnd x = secret.enum.flatMap
      (fun pb => encodePoint (generatePolynomialCoeffs pb.2 k (rnd pb.1)) x
        FieldPrime) from rfl,
    hpair.1, hpair.2]
  have hy := evaluatePolynomial_bounds
    (generatePolynomialCoeffs (secret.getD p 0) k (rnd p)) x
    (by rw [generatePolynomialCoeffs_length (secret.getD p 0) k (rnd p)
      (by omega)]; omega)
  have hy0F : 0 ≤ evaluatePolynomial
      (generatePolynomialCoeffs (secret.getD p 0) k (rnd p)) x FieldPrime :=
    hy.1
  have hmod0 : 0 ≤ evaluatePolynomial
      (generatePolynomialCoeffs (secret.getD p 0) k (rnd p)) x FieldPrime % 256 :=
    Int.emod_nonneg _ (by norm_num)
  have hdiv0 : 0 ≤ evaluatePolynomial
      (generatePolynomialCoeffs (secret.getD p 0) k (rnd p)) x FieldPrime / 256 :=
    Int.ediv_nonneg hy0F (by norm_num)
  rw [Int.toNat_of_nonneg hmod0, Int.toNat_of_nonneg hdiv0]
  rw [Int.emod_add_ediv']
  rfl

lemma map_getD_share (f : Nat → Share) (sel : List Nat) (i : Nat)
    (hi : i < sel.length) :
    (sel.map f).getD i default = f (sel.getD i 0) := by
  rw [List.getD_eq_getElem?_getD, List.getElem?_map,
    List.getElem?_eq_getElem hi, List.getD_eq_getElem?_getD,
    List.getElem?_eq_getElem hi]
  rfl

lemma mapM_ok_of_forall {α β : Type} (l : List α) (f : α → Except String β)
    (g : α → β) (h : ∀ a ∈ l, f a = .ok (g a)) : l.mapM f = .ok (l.map g) := by
  induction l with
  | nil => rfl
  | cons a t ih =>
    rw [List.mapM_cons, h a (List.mem_cons_self _ _),
      ih (fun x hx => h x (List.mem_cons_of_mem _ hx))]
    rfl

lemma range_map_getD (l : List Nat) :
    (List.range l.length).map (fun p => l.getD p 0) = l := by
  refine List.ext_getElem (by simp) ?_
  intro i h1 h2
  simp only [List.getElem_map, List.getElem_range]
  rw [List.getD_eq_getElem?_getD, List.getElem?_eq_getElem h2]
  rfl

/-- C1: for every non-empty byte secret, valid `(n, k)`, and any choice of
random coefficients, `Combine` applied to any `k`-sized subset of the
shares produced by `Split` (selected by pairwise-distinct positions, in any
order) returns exactly the original secret. -/
theorem split_combine_roundtrip
    (secret : List Nat) (n k : Nat) (rnd : Nat → Nat → Int)
    (hbytes : ∀ b ∈ secret, b < 256)
    (shares : List Share) (hsplit : Split secret n k rnd = .ok shares)
    (sel : List Nat) (hselk : sel.length = k) (hnd : sel.Nodup)
    (hsel : ∀ j ∈ sel, j < n) :
    Combine (sel.map (fun j => shares.getD j default)) k = .ok secret := by
  have hok : validateSplitParams secret n k = .ok () := by
    cases hv : validateSplitParams secret n k with
    | error e => rw [Split, hv] at hsplit; cases hsplit
    | ok u => rfl
  have hfacts : secret ≠ [] ∧ 2 ≤ k ∧ k ≤ 255 ∧ k ≤ n ∧ n ≤ 255 := by
    unfold validateSplitParams MinThreshold MaxShares at hok
    split_ifs at hok with h1 h2 h3 h4 h5
    have h1b : secret ≠ [] := by
      simpa [List.isEmpty_iff] using h1
    exact ⟨h1b, by omega, by omega, by omega, by omega⟩
  obtain ⟨hsecne, hk2, hk255, hkn, hn255⟩ := hfacts
  have hL1 : 1 ≤ secret.length := by
    cases secret with
    | nil => exact absurd rfl hsecne
    | cons a t => simp
  rw [split_ok_eq secret n k rnd hok] at hsplit
  have hshares : shares = (List.range n).map (fun i =>
      Share.mk (i + 1) (splitValue secret k rnd ((i + 1 : Nat) : Int))) := by
    injection hsplit with h
    exact h.symm
  subst hshares
  have hacc : ∀ j, j < n → ((List.range n).map (fun i =>
      Share.mk (i + 1) (splitValue secret k rnd ((i + 1 : Nat) : Int)))).getD
        j default =
      Share.mk (j + 1) (splitValue secret k rnd ((j + 1 : Nat) : Int)) := by
    intro j hj
    rw [List.getD_eq_getElem?_getD, List.getElem?_map, List.getElem?_range hj]
    rfl
  have hTmap : sel.map (fun j => ((List.range n).map (fun i =>
      Share.mk (i + 1) (splitValue secret k rnd ((i + 1 : Nat) : Int)))).getD
        j default) =
      sel.map (fun j =>
        Share.mk (j + 1) (splitValue secret k rnd ((j + 1 : Nat) : Int))) :=
    List.map_congr_left (fun j hj => hacc j (hsel j hj))
  rw [hTmap]
  have hTlen : (sel.map (fun j =>
      Share.mk (j + 1) (splitValue secret k rnd ((j + 1 : Nat) : Int)))).length
      = k := by
    rw [List.length_map, hselk]
  have hTvlen : ∀ s ∈ sel.map (fun j =>
      Share.mk (j + 1) (splitValue secret k rnd ((j + 1 : Nat) : Int))),
      s.value.length = 2 * secret.length := by
    intro s hs
    obtain ⟨j, -, rfl⟩ := List.mem_map.mp hs
    exact splitValue_length secret k rnd _
  have hT0 : ((sel.map (fun j =>
      Share.mk (j + 1) (splitValue secret k rnd ((j + 1 : Nat) : Int)))).getD
        0 default).value.length = 2 * secret.length := by
    rw [map_getD_share _ sel 0 (by omega)]
    exact splitValue_length secret k rnd _
  have htake : (sel.map (fun j =>
      Share.mk (j + 1) (splitValue secret k rnd ((j + 1 : Nat) : Int)))).take k
      = sel.map (fun j =>
        Share.mk (j + 1) (splitValue secret k rnd ((j + 1 : Nat) : Int))) :=
    List.take_of_length_le (le_of_eq hTlen)
  have hTidx : ∀ s ∈ sel.map (fun j =>
      Share.mk (j + 1) (splitValue secret k rnd ((j + 1 : Nat) : Int))),
      1 ≤ s.index ∧ s.index ≤ 255 := by
    intro s hs
    obtain ⟨j, hj, rfl⟩ := List.mem_map.mp hs
    have := hsel j hj
    exact ⟨by show 1 ≤ j + 1; omega, by show j + 1 ≤ 255; omega⟩
  have hTnd : ((sel.map (fun j =>
      Share.mk (j + 1) (splitValue secret k rnd ((j + 1 : Nat) : Int)))).map
        Share.index).Nodup := by
    rw [List.map_map]
    have heq : (Share.index ∘ fun j =>
        Share.mk (j + 1) (splitValue secret k rnd ((j + 1 : Nat) : Int))) =
        (fun j => j + 1) := rfl
    rw [heq]
    exact hnd.map (fun a b hab => by omega)
  have hv1 : validateCombineParams (sel.map (fun j =>
      Share.mk (j + 1) (splitValue secret k rnd ((j + 1 : Nat) : Int)))) k
      = .ok () := by
    rw [validateCombineParams_ok_iff]
    refine ⟨?_, hk2, hk255, by omega, by omega, ?_, ?_⟩
    · intro hc
      rw [hc] at hTlen
      simp at hTlen
      omega
    · rw [hT0]
      omega
    · intro s hs
      rw [htake] at hs
      rw [hT0]
      exact hTvlen s hs
  have hv2 : validateShareIndices ((sel.map (fun j =>
      Share.mk (j + 1) (splitValue secret k rnd ((j + 1 : Nat) : Int)))).take k)
      = .ok () := by
    rw [htake, validateShareIndices_ok_iff]
    exact ⟨fun s hs => by have := (hTidx s hs).1; omega, hTnd⟩
  rw [htake] at hv2
  simp only [Combine, hv1, hv2, htake, hT0]
  have hsecLen : 2 * secret.length / 2 = secret.length := by omega
  rw [hsecLen]
  have hmap : ∀ p ∈ List.range secret.length,
      (lagrangeInterpolate (sel.map (fun j =>
        Share.mk (j + 1) (splitValue secret k rnd ((j + 1 : Nat) : Int)))) p
        FieldPrime).map (fun r => (r % 256).toNat) = .ok (secret.getD p 0) := by
    intro p hp
    have hpL := List.mem_range.mp hp
    have hb : secret.getD p 0 < 256 := hbytes _ (nat_getD_mem secret hpL)
    have hcall := lagrangeInterpolate_correct
      (sel.map (fun j =>
        Share.mk (j + 1) (splitValue secret k rnd ((j + 1 : Nat) : Int))))
      (generatePolynomialCoeffs (secret.getD p 0) k (rnd p)) p
      (by omega) (by rw [generatePolynomialCoeffs_length _ _ _ (by omega),
        hTlen]) hTidx hTnd ?_
    · have hhead : (generatePolynomialCoeffs (secret.getD p 0) k
          (rnd p)).headI = ((secret.getD p 0 : Nat) : Int) := rfl
      rw [hhead] at hcall
      have hmod : ((secret.getD p 0 : Nat) : Int) % 257 =
          ((secret.getD p 0 : Nat) : Int) :=
        Int.emod_eq_of_lt (Int.natCast_nonneg _) (by exact_mod_cast by omega)
      rw [hmod] at hcall
      have hcallFP : lagrangeInterpolate (sel.map (fun j =>
          Share.mk (j + 1) (splitValue secret k rnd ((j + 1 : Nat) : Int)))) p
          FieldPrime = .ok ((secret.getD p 0 : Nat) : Int) := hcall
      rw [hcallFP]
      have hmod2 : ((secret.getD p 0 : Nat) : Int) % 256 =
          ((secret.getD p 0 : Nat) : Int) :=
        Int.emod_eq_of_lt (Int.natCast_nonneg _) (by exact_mod_cast hb)
      show Except.ok ((((secret.getD p 0 : Nat) : Int) % 256).toNat) =
        Except.ok (secret.getD p 0)
      rw [hmod2, Int.toNat_natCast]
    · intro i hi
      have hik : i < sel.length := by
        rw [hselk]
        rw [hTlen] at hi
        exact hi
      rw [map_getD_share _ sel i hik]
      constructor
      · rw [show (Share.mk (sel.getD i 0 + 1)
          (splitValue secret k rnd ((sel.getD i 0 + 1 : Nat) : Int))).value =
          splitValue secret k rnd ((sel.getD i 0 + 1 : Nat) : Int) from rfl,
          splitValue_length]
        omega
      · have hxeq : idxInt (sel.map (fun j =>
            Share.mk (j + 1) (splitValue secret k rnd ((j + 1 : Nat) : Int))))
            i = ((sel.getD i 0 + 1 : Nat) : Int) := by
          unfold idxInt
          rw [map_getD_share _ sel i hik]
        rw [hxeq]
        exact splitValue_decode secret k rnd _ _ p hpL hk2
  rw [mapM_ok_of_forall (List.range secret.length) _
    (fun p => secret.getD p 0) hmap, range_map_getD]

/-- Witness for C1: a 2-of-3 sharing of the secret `[7, 200]` is recovered
from the subset of shares at positions 2 and 0, in that order. -/
theorem split_combine_roundtrip_witness :
    Combine ([2, 0].map (fun j =>
      ([Share.mk 1 [20, 0, 56, 0], Share.mk 2 [33, 0, 169, 0],
        Share.mk 3 [46, 0, 25, 0]] : List Share).getD j default)) 2 =
      .ok [7, 200] :=
  split_combine_roundtrip [7, 200] 3 2 (fun p i => (p * 100 + i * 13 : Int))
    (by decide) _ (by rfl) [2, 0] (by rfl) (by decide) (by decide)

end GoShamir
